import Mathlib

/-!
Verification of the control-stack resolver in
`src/instrument/add_hooks/block_stack.rs` (crate `wasabi`).

The embedding is shallow:
* `Instr` keeps only what the resolver inspects: the five structural
  instruction kinds (Block, Loop, If, Else, End); every non-structural
  instruction (payloads are never inspected) is collapsed into `other`.
* `Idx<Instr>` and `Idx<Label>` become `Nat`.
* The Rust `HashMap` is modelled as an association list where a fresh
  insertion is consed to the front, so `List.lookup` (first match wins)
  has exactly the overwrite semantics of `HashMap::insert`/`get`.
* The Rust `Vec` used as a stack (push/pop at the back, `iter().rev()`
  walks top-down, `first()` is the bottom) is modelled as a Lean list
  whose HEAD is the TOP of the stack: push = cons, pop = head/tail,
  `iter().rev()` = the list itself, `first()` = `getLast?`.
* `panic!` / `expect` / failed `assert!` become `Option.none`.
-/

inductive Instr where
  | block : Instr
  | loop : Instr
  | if_ : Instr
  | else_ : Instr
  | end_ : Instr
  | other : Instr
deriving DecidableEq, Repr

inductive BlockStackElement where
  | function : (end_ : Nat) → BlockStackElement
  | block : (begin_ : Nat) → (end_ : Nat) → BlockStackElement
  | loop : (begin_ : Nat) → (end_ : Nat) → BlockStackElement
  | if_ : (begin_if : Nat) → (begin_else : Option Nat) → (end_ : Nat) → BlockStackElement
  | else_ : (begin_else : Nat) → (begin_if : Nat) → (end_ : Nat) → BlockStackElement
deriving DecidableEq, Repr

structure BlockStack where
  block_stack : List BlockStackElement
  begin_end_map : List (Nat × Nat)
deriving DecidableEq, Repr

structure BranchTarget where
  absolute_instr : Nat
  ended_blocks : List BlockStackElement
deriving DecidableEq, Repr

/-- The scan loop of `BlockStack::new` (lines 54-69): fold over the
enumerated instructions (all but the last), maintaining the auxiliary
`begin_stack` and the `begin_end_map` under construction.  Popping from
an empty `begin_stack` is the `expect` panic, modelled as `none`. -/
def buildMapAux : List (Nat × Instr) → List Nat → List (Nat × Nat) →
    Option (List Nat × List (Nat × Nat))
  | [], begin_stack, m => some (begin_stack, m)
  | (iidx, i) :: rest, begin_stack, m =>
    match i with
    | .block | .loop | .if_ => buildMapAux rest (iidx :: begin_stack) m
    | .else_ =>
      match begin_stack with
      | [] => none
      | begin_iidx :: st =>
        -- special case: Else also starts its own block
        buildMapAux rest (iidx :: st) ((begin_iidx, iidx) :: m)
    | .end_ =>
      match begin_stack with
      | [] => none
      | begin_iidx :: st => buildMapAux rest st ((begin_iidx, iidx) :: m)
    | .other => buildMapAux rest begin_stack m

/-- `BlockStack::new` (lines 50-76).  The slice `instrs[..instrs.len()-1]`
panics in Rust when `instrs` is empty (index underflow), hence the
leading `[] => none` case.  The trailing `assert!(begin_stack.is_empty())`
is the `guard`. -/
def BlockStack.new (instrs : List Instr) : Option BlockStack :=
  match instrs with
  | [] => none
  | _ =>
    match buildMapAux instrs.dropLast.enum [] [] with
    | none => none
    | some (begin_stack, begin_end_map) =>
      if begin_stack = [] then
        some { block_stack := [.function (instrs.length - 1)], begin_end_map }
      else
        none

/-- `BlockStack::begin_block` (lines 78-84). -/
def BlockStack.begin_block (s : BlockStack) (begin_ : Nat) : Option BlockStack :=
  match s.begin_end_map.lookup begin_ with
  | none => none
  | some e => some { s with block_stack := .block begin_ e :: s.block_stack }

/-- `BlockStack::begin_loop` (lines 86-92). -/
def BlockStack.begin_loop (s : BlockStack) (begin_ : Nat) : Option BlockStack :=
  match s.begin_end_map.lookup begin_ with
  | none => none
  | some e => some { s with block_stack := .loop begin_ e :: s.block_stack }

/-- `BlockStack::begin_if` (lines 94-112): first lookup yields
`end_or_else`; a second probe of the map keyed by `end_or_else`
distinguishes an if-with-else from an if-without-else. -/
def BlockStack.begin_if (s : BlockStack) (begin_if : Nat) : Option BlockStack :=
  match s.begin_end_map.lookup begin_if with
  | none => none
  | some end_or_else =>
    match s.begin_end_map.lookup end_or_else with
    | some e =>
      some { s with block_stack := .if_ begin_if (some end_or_else) e :: s.block_stack }
    | none =>
      some { s with block_stack := .if_ begin_if none end_or_else :: s.block_stack }

/-- `BlockStack::else_` (lines 115-126): pop; only an `If` with
`begin_else = Some` is accepted, anything else (or an empty stack)
panics.  Returns the updated stack together with the popped If. -/
def BlockStack.else_ (s : BlockStack) : Option (BlockStack × BlockStackElement) :=
  match s.block_stack with
  | .if_ begin_if (some begin_else) e :: rest =>
    some ({ s with block_stack := .else_ begin_else begin_if e :: rest },
          .if_ begin_if (some begin_else) e)
  | _ => none

/-- `BlockStack::end` (lines 128-130): pop and return the top record. -/
def BlockStack.end_ (s : BlockStack) : Option (BlockStack × BlockStackElement) :=
  match s.block_stack with
  | [] => none
  | top :: rest => some ({ s with block_stack := rest }, top)

/-- `BlockStack::br_target` (lines 134-152).  `iter().rev().take(label+1)`
is `take (label+1)` of the head-is-top list; `ended_blocks.get(label)`
is the `expect` that fails when the stack is too shallow. -/
def BlockStack.br_target (s : BlockStack) (label : Nat) : Option BranchTarget :=
  let ended_blocks := s.block_stack.take (label + 1)
  match ended_blocks[label]? with
  | none => none
  | some target_block =>
    let absolute_instr :=
      match target_block with
      | .loop begin_ _ => begin_
      | .function e => e
      | .block _ e => e
      | .if_ _ _ e => e
      | .else_ _ _ e => e
    some { absolute_instr, ended_blocks }

/-- `BlockStack::return_target` (lines 155-164): `first()` (the bottom of
the stack) must be the `Function` record; `ended_blocks` is the whole
stack, innermost-first. -/
def BlockStack.return_target (s : BlockStack) : Option BranchTarget :=
  match s.block_stack.getLast? with
  | some (.function e) => some { absolute_instr := e, ended_blocks := s.block_stack }
  | _ => none

/-- The instruction kinds whose position becomes a key of the
begin-end map: Block, Loop and If (pushed when seen) and Else
(pushed when it closes the if-body and opens its own). -/
def beginLike : Instr → Bool
  | .block | .loop | .if_ | .else_ => true
  | _ => false

/-- Indices of the begin-like instructions of an enumerated sequence. -/
def beginIdx (l : List (Nat × Instr)) : List Nat :=
  l.filterMap fun p => if beginLike p.2 then some p.1 else none

example : BlockStack.new [.block, .other, .end_, .end_] =
    some { block_stack := [.function 3], begin_end_map := [(0, 2)] } := by decide

example : BlockStack.new [.if_, .other, .else_, .other, .end_, .end_] =
    some { block_stack := [.function 5], begin_end_map := [(2, 4), (0, 2)] } := by decide

/-- C9: `br_target(label)` is fatal (pops the `expect`) exactly when the
stack holds fewer than `label + 1` records; otherwise it succeeds. -/
theorem br_target_none_iff (s : BlockStack) (label : Nat) :
    s.br_target label = none ↔ s.block_stack.length < label + 1 := by
  unfold BlockStack.br_target
  cases hget : (s.block_stack.take (label + 1))[label]? with
  | none =>
    simp only [hget]
    rw [List.getElem?_eq_none_iff, List.length_take] at hget
    simp
    omega
  | some tgt =>
    simp only [hget]
    rw [List.getElem?_eq_some_iff] at hget
    obtain ⟨hlt, -⟩ := hget
    rw [List.length_take] at hlt
    simp
    omega

/-- The resolution rule of `br_target`'s inner `match` (line 145-148),
as a named function so it can appear in theorem statements. -/
def branchResolve : BlockStackElement → Nat
  | .loop begin_ _ => begin_
  | .function e => e
  | .block _ e => e
  | .if_ _ _ e => e
  | .else_ _ _ e => e

/-- Helper: reduction of `br_target` once the target lookup succeeds. -/
theorem br_target_eq_some (s : BlockStack) (label : Nat) (tgt : BlockStackElement)
    (htake : (s.block_stack.take (label + 1))[label]? = some tgt) :
    s.br_target label = some
      { absolute_instr := branchResolve tgt,
        ended_blocks := s.block_stack.take (label + 1) } := by
  unfold BlockStack.br_target
  dsimp only
  split
  · simp_all
  · rename_i target_block heq
    rw [htake] at heq
    injection heq with h2
    subst h2
    clear htake
    cases tgt <;> rfl

/-- C1: when the stack holds at least `label + 1` records, `br_target`
succeeds and resolves the `label`-th innermost record to its `begin`
position when it is a Loop, and to its `end` position when it is a
Function, Block, If or Else record. -/
theorem br_target_absolute_instr (s : BlockStack) (label : Nat)
    (h : label < s.block_stack.length) :
    ∃ bt, s.br_target label = some bt ∧
      (∀ b e, s.block_stack[label]? = some (.loop b e) → bt.absolute_instr = b) ∧
      (∀ e, s.block_stack[label]? = some (.function e) → bt.absolute_instr = e) ∧
      (∀ b e, s.block_stack[label]? = some (.block b e) → bt.absolute_instr = e) ∧
      (∀ bi be e, s.block_stack[label]? = some (.if_ bi be e) → bt.absolute_instr = e) ∧
      (∀ be bi e, s.block_stack[label]? = some (.else_ be bi e) → bt.absolute_instr = e) := by
  have htgt : s.block_stack[label]? = some s.block_stack[label] :=
    List.getElem?_eq_some_iff.mpr ⟨h, rfl⟩
  have htake : (s.block_stack.take (label + 1))[label]? = some s.block_stack[label] := by
    rwa [List.getElem?_take_of_lt (Nat.lt_succ_self label)]
  rcases hc : s.block_stack[label] with e | ⟨b, e⟩ | ⟨b, e⟩ | ⟨bi, be, e⟩ | ⟨be, bi, e⟩ <;>
    rw [hc] at htake htgt <;>
    refine ⟨_, br_target_eq_some s label _ htake, ?_, ?_, ?_, ?_, ?_⟩ <;>
      (intros; simp_all [branchResolve])

/-- C1 witness: a concrete two-record stack with a Loop on top;
`br_target 0` resolves to the loop's begin position. -/
theorem br_target_absolute_instr_witness :
    ∃ bt, BlockStack.br_target ⟨[.loop 3 7, .function 9], []⟩ 0 = some bt ∧
      bt.absolute_instr = 3 := by
  obtain ⟨bt, hbt, hloop, -, -, -, -⟩ :=
    br_target_absolute_instr ⟨[.loop 3 7, .function 9], []⟩ 0 (by decide)
  exact ⟨bt, hbt, hloop 3 7 rfl⟩

/-- C2: when the stack holds at least `label + 1` records, the
`ended_blocks` of `br_target(label)` is exactly the `label + 1` topmost
records in innermost-first order; its length is `label + 1` and its last
element is the target scope. -/
theorem br_target_ended_blocks_spec (s : BlockStack) (label : Nat)
    (h : label < s.block_stack.length) :
    ∃ bt, s.br_target label = some bt ∧
      bt.ended_blocks = s.block_stack.take (label + 1) ∧
      bt.ended_blocks.length = label + 1 ∧
      bt.ended_blocks.getLast? = s.block_stack[label]? := by
  have htgt : s.block_stack[label]? = some s.block_stack[label] :=
    List.getElem?_eq_some_iff.mpr ⟨h, rfl⟩
  have htake : (s.block_stack.take (label + 1))[label]? = some s.block_stack[label] := by
    rwa [List.getElem?_take_of_lt (Nat.lt_succ_self label)]
  have hlen : (s.block_stack.take (label + 1)).length = label + 1 := by
    rw [List.length_take]; omega
  refine ⟨_, br_target_eq_some s label _ htake, rfl, hlen, ?_⟩
  rw [List.getLast?_eq_getElem?, hlen, htgt]
  rw [Nat.add_sub_cancel, htake]

/-- C2 witness: on a three-record stack, `br_target 1` ends the two
innermost records, the last of which is the target. -/
theorem br_target_ended_blocks_spec_witness :
    ∃ bt, BlockStack.br_target ⟨[.block 2 4, .loop 1 6, .function 9], []⟩ 1 = some bt ∧
      bt.ended_blocks = [.block 2 4, .loop 1 6] ∧
      bt.ended_blocks.length = 2 ∧
      bt.ended_blocks.getLast? = some (.loop 1 6) := by
  obtain ⟨bt, hbt, heq, hlen, hlast⟩ :=
    br_target_ended_blocks_spec ⟨[.block 2 4, .loop 1 6, .function 9], []⟩ 1 (by decide)
  exact ⟨bt, hbt, heq, hlen, by rw [hlast]; rfl⟩

/-- C7: whenever the bottommost record of the stack is a Function record,
`return_target` resolves to that record's end position and its
`ended_blocks` is the whole stack, innermost-first, at any depth. -/
theorem return_target_spec (s : BlockStack) (e : Nat)
    (h : s.block_stack.getLast? = some (.function e)) :
    s.return_target = some { absolute_instr := e, ended_blocks := s.block_stack } := by
  unfold BlockStack.return_target
  rw [h]

/-- C7 witness: a depth-three stack whose bottom is `Function 9`. -/
theorem return_target_spec_witness :
    BlockStack.return_target ⟨[.block 2 4, .loop 1 6, .function 9], []⟩ =
      some { absolute_instr := 9,
             ended_blocks := [.block 2 4, .loop 1 6, .function 9] } :=
  return_target_spec ⟨[.block 2 4, .loop 1 6, .function 9], []⟩ 9 rfl

/-- C5: `else_()` is fatal exactly when the stack is empty or its top is
not an If with a present `begin_else`; when the top is
`If begin_if (some begin_else) end`, it pushes
`Else begin_else begin_if end` (both begin positions and the same end)
and returns the popped If record. -/
theorem else_pop_spec (s : BlockStack) :
    (s.else_ = none ↔ s.block_stack = [] ∨
      ∃ top rest, s.block_stack = top :: rest ∧
        ∀ bi b e, top ≠ .if_ bi (some b) e) ∧
    (∀ bi b e rest, s.block_stack = .if_ bi (some b) e :: rest →
      s.else_ = some ({ s with block_stack := .else_ b bi e :: rest },
                      .if_ bi (some b) e)) := by
  constructor
  · rcases hbs : s.block_stack with - | ⟨top, rest⟩
    · simp [BlockStack.else_, hbs]
    · rcases top with e | ⟨b, e⟩ | ⟨b, e⟩ | ⟨bi, be, e⟩ | ⟨be, bi, e⟩ <;>
        [skip; skip; skip; rcases be with - | b; skip] <;>
        simp [BlockStack.else_, hbs]
  · intro bi b e rest hbs
    simp [BlockStack.else_, hbs]

/-- C5 witness: the fatal direction on a stack topped by an If without
else, and the successful pop on a stack topped by an If with else. -/
theorem else_pop_spec_witness :
    BlockStack.else_ ⟨[.if_ 0 none 2, .function 3], []⟩ = none ∧
    BlockStack.else_ ⟨[.if_ 0 (some 2) 4, .function 5], []⟩ =
      some (⟨[.else_ 2 0 4, .function 5], []⟩, .if_ 0 (some 2) 4) := by
  constructor
  · exact (else_pop_spec ⟨[.if_ 0 none 2, .function 3], []⟩).1.mpr
      (Or.inr ⟨.if_ 0 none 2, [.function 3], rfl, by intro bi b e h; cases h⟩)
  · exact (else_pop_spec ⟨[.if_ 0 (some 2) 4, .function 5], []⟩).2 0 2 4 [.function 5] rfl

/-- C6: for an If with an Else (both probes of the begin-end map
succeed), the begin_if → else_ → end sequence pushes
`If p (some q) e`, then `else_` returns that If and leaves
`Else q p e` on top, and `end` returns that same Else record,
restoring the original stack. -/
theorem if_else_end_sequence (s : BlockStack) (p q e : Nat)
    (h1 : s.begin_end_map.lookup p = some q)
    (h2 : s.begin_end_map.lookup q = some e) :
    ∃ s1 s2, s.begin_if p = some s1 ∧
      s1.block_stack = .if_ p (some q) e :: s.block_stack ∧
      s1.else_ = some (s2, .if_ p (some q) e) ∧
      s2.block_stack = .else_ q p e :: s.block_stack ∧
      s2.end_ = some ({ s2 with block_stack := s.block_stack }, .else_ q p e) := by
  refine ⟨{ s with block_stack := .if_ p (some q) e :: s.block_stack },
          { s with block_stack := .else_ q p e :: s.block_stack },
          ?_, rfl, ?_, rfl, ?_⟩
  · simp [BlockStack.begin_if, h1, h2]
  · simp [BlockStack.else_]
  · simp [BlockStack.end_]

/-- C6 witness: the spec's example sequence `[If, Nop, Else, Nop, End, End]`
with map `{0 → 2, 2 → 4}`. -/
theorem if_else_end_sequence_witness :
    ∃ s1 s2,
      BlockStack.begin_if ⟨[.function 5], [(2, 4), (0, 2)]⟩ 0 = some s1 ∧
      s1.block_stack = [.if_ 0 (some 2) 4, .function 5] ∧
      s1.else_ = some (s2, .if_ 0 (some 2) 4) ∧
      s2.block_stack = [.else_ 2 0 4, .function 5] ∧
      s2.end_ = some ({ s2 with block_stack := [.function 5] }, .else_ 2 0 4) :=
  if_else_end_sequence ⟨[.function 5], [(2, 4), (0, 2)]⟩ 0 2 4 (by decide) (by decide)

/-- Unfolding `beginIdx` over a cons cell. -/
theorem beginIdx_cons (i : Nat) (ins : Instr) (rest : List (Nat × Instr)) :
    beginIdx ((i, ins) :: rest) =
      if beginLike ins then i :: beginIdx rest else beginIdx rest := by
  cases ins <;> rfl

/-- Coercion of a cons cell into a multiset, as a sum. -/
theorem coe_cons_eq (a : Nat) (l : List Nat) :
    ((a :: l : List Nat) : Multiset Nat) = ({a} : Multiset Nat) + (l : Multiset Nat) := by
  rw [Multiset.singleton_add, Multiset.cons_coe]

/-- `List.lookup` succeeds exactly on the keys of the association list. -/
theorem lookup_isSome_iff_mem_keys (m : List (Nat × Nat)) (k : Nat) :
    (m.lookup k).isSome = true ↔ k ∈ m.map Prod.fst := by
  induction m with
  | nil => simp [List.lookup]
  | cons p m ih =>
    obtain ⟨a, b⟩ := p
    by_cases h : k = a
    · subst h
      have hb : (k == k) = true := by simp
      simp [List.lookup, hb]
    · have hb : (k == a) = false := by simp [h]
      simp [List.lookup, hb, ih, h]

/-- A successful `List.lookup` exhibits a member of the list. -/
theorem lookup_eq_some_mem (m : List (Nat × Nat)) (k v : Nat)
    (h : m.lookup k = some v) : (k, v) ∈ m := by
  induction m with
  | nil => simp [List.lookup] at h
  | cons p m ih =>
    obtain ⟨a, b⟩ := p
    by_cases hk : k = a
    · subst hk
      have hb : (k == k) = true := by simp
      simp [List.lookup, hb] at h
      simp [h]
    · have hb : (k == a) = false := by simp [hk]
      simp [List.lookup, hb] at h
      exact List.mem_cons_of_mem _ (ih h)

/-- Key conservation of the indexer scan: as multisets, the keys of the
final map plus the residual begin-stack are the initial keys plus the
initial stack plus every begin-like index of the scanned segment. -/
theorem buildMapAux_keys_multiset :
    ∀ (l : List (Nat × Instr)) (st : List Nat) (m : List (Nat × Nat))
      (st' : List Nat) (m' : List (Nat × Nat)),
      buildMapAux l st m = some (st', m') →
      (m'.map Prod.fst : Multiset Nat) + (st' : Multiset Nat) =
        (m.map Prod.fst : Multiset Nat) + (st : Multiset Nat) +
          (beginIdx l : Multiset Nat) := by
  intro l
  induction l with
  | nil =>
    intro st m st' m' h
    simp [buildMapAux] at h
    obtain ⟨rfl, rfl⟩ := h
    simp [beginIdx]
  | cons p rest ih =>
    obtain ⟨iidx, i⟩ := p
    intro st m st' m' h
    cases i with
    | block =>
      simp only [buildMapAux] at h
      rw [ih _ _ _ _ h,
        show beginIdx ((iidx, Instr.block) :: rest) = iidx :: beginIdx rest from rfl]
      simp only [coe_cons_eq]
      abel
    | loop =>
      simp only [buildMapAux] at h
      rw [ih _ _ _ _ h,
        show beginIdx ((iidx, Instr.loop) :: rest) = iidx :: beginIdx rest from rfl]
      simp only [coe_cons_eq]
      abel
    | if_ =>
      simp only [buildMapAux] at h
      rw [ih _ _ _ _ h,
        show beginIdx ((iidx, Instr.if_) :: rest) = iidx :: beginIdx rest from rfl]
      simp only [coe_cons_eq]
      abel
    | else_ =>
      cases st with
      | nil => simp [buildMapAux] at h
      | cons b st2 =>
        simp only [buildMapAux] at h
        rw [ih _ _ _ _ h,
          show beginIdx ((iidx, Instr.else_) :: rest) = iidx :: beginIdx rest from rfl,
          show List.map Prod.fst ((b, iidx) :: m) = b :: List.map Prod.fst m from rfl]
        simp only [coe_cons_eq]
        abel
    | end_ =>
      cases st with
      | nil => simp [buildMapAux] at h
      | cons b st2 =>
        simp only [buildMapAux] at h
        rw [ih _ _ _ _ h,
          show beginIdx ((iidx, Instr.end_) :: rest) = beginIdx rest from rfl,
          show List.map Prod.fst ((b, iidx) :: m) = b :: List.map Prod.fst m from rfl]
        simp only [coe_cons_eq]
        abel
    | other =>
      simp only [buildMapAux] at h
      rw [ih _ _ _ _ h,
        show beginIdx ((iidx, Instr.other) :: rest) = beginIdx rest from rfl]

/-- Every begin-like index of `enumFrom k instrs` is at least `k`. -/
theorem beginIdx_enumFrom_lower :
    ∀ (instrs : List Instr) (k : Nat), ∀ x ∈ beginIdx (List.enumFrom k instrs), k ≤ x := by
  intro instrs
  induction instrs with
  | nil => intro k x hx; simp [beginIdx] at hx
  | cons i rest ih =>
    intro k x hx
    rw [List.enumFrom_cons, beginIdx_cons] at hx
    by_cases hb : beginLike i = true
    · rw [if_pos hb] at hx
      rcases List.mem_cons.mp hx with rfl | hx
      · exact Nat.le_refl _
      · exact Nat.le_of_succ_le (ih (k + 1) x hx)
    · rw [if_neg hb] at hx
      exact Nat.le_of_succ_le (ih (k + 1) x hx)

/-- The begin-like indices of an enumerated list are pairwise distinct. -/
theorem beginIdx_enumFrom_nodup :
    ∀ (instrs : List Instr) (k : Nat), (beginIdx (List.enumFrom k instrs)).Nodup := by
  intro instrs
  induction instrs with
  | nil => intro k; simp [beginIdx]
  | cons i rest ih =>
    intro k
    rw [List.enumFrom_cons, beginIdx_cons]
    by_cases hb : beginLike i = true
    · rw [if_pos hb]
      refine List.nodup_cons.mpr ⟨fun hk => ?_, ih (k + 1)⟩
      have := beginIdx_enumFrom_lower rest (k + 1) k hk
      omega
    · rw [if_neg hb]
      exact ih (k + 1)

/-- Membership in `beginIdx`. -/
theorem mem_beginIdx_iff (l : List (Nat × Instr)) (x : Nat) :
    x ∈ beginIdx l ↔ ∃ ins, (x, ins) ∈ l ∧ beginLike ins = true := by
  simp only [beginIdx, List.mem_filterMap]
  constructor
  · rintro ⟨⟨a, ins⟩, hmem, hf⟩
    dsimp only at hf
    by_cases hb : beginLike ins = true
    · rw [if_pos hb] at hf
      injection hf with hf
      subst hf
      exact ⟨ins, hmem, hb⟩
    · rw [if_neg hb] at hf
      cases hf
  · rintro ⟨ins, hmem, hb⟩
    exact ⟨(x, ins), hmem, by dsimp only; rw [if_pos hb]⟩

/-- Membership in an enumeration, phrased through indexing. -/
theorem mk_mem_enumFrom_iff (instrs : List Instr) :
    ∀ (k x : Nat) (ins : Instr),
      (x, ins) ∈ List.enumFrom k instrs ↔ k ≤ x ∧ instrs[x - k]? = some ins := by
  induction instrs with
  | nil => intro k x ins; simp
  | cons i rest ih =>
    intro k x ins
    rw [List.enumFrom_cons]
    constructor
    · intro hx
      rcases List.mem_cons.mp hx with heq | hx
      · injection heq with h1 h2
        subst h1
        subst h2
        simp
      · obtain ⟨hk, hget⟩ := (ih (k + 1) x ins).mp hx
        refine ⟨by omega, ?_⟩
        have hxk : x - k = (x - (k + 1)) + 1 := by omega
        rw [hxk, List.getElem?_cons_succ]
        exact hget
    · rintro ⟨hk, hget⟩
      by_cases hxk : x = k
      · subst hxk
        rw [Nat.sub_self, List.getElem?_cons_zero] at hget
        injection hget with hget
        subst hget
        exact List.mem_cons_self _ _
      · refine List.mem_cons_of_mem _ ((ih (k + 1) x ins).mpr ⟨by omega, ?_⟩)
        have hxk2 : x - k = (x - (k + 1)) + 1 := by omega
        rw [hxk2, List.getElem?_cons_succ] at hget
        exact hget

/-- Every value of the map built by the scan is (position of) an Else or
an End instruction of the scanned segment, unless inherited. -/
theorem buildMapAux_vals :
    ∀ (l : List (Nat × Instr)) (st : List Nat) (m : List (Nat × Nat))
      (st' : List Nat) (m' : List (Nat × Nat)),
      buildMapAux l st m = some (st', m') →
      ∀ p ∈ m', p ∈ m ∨ (p.2, Instr.else_) ∈ l ∨ (p.2, Instr.end_) ∈ l := by
  intro l
  induction l with
  | nil =>
    intro st m st' m' h p hp
    simp [buildMapAux] at h
    obtain ⟨rfl, rfl⟩ := h
    exact Or.inl hp
  | cons q rest ih =>
    obtain ⟨iidx, i⟩ := q
    intro st m st' m' h p hp
    cases i with
    | block =>
      simp only [buildMapAux] at h
      rcases ih _ _ _ _ h p hp with hm | hin | hin
      · exact Or.inl hm
      · exact Or.inr (Or.inl (List.mem_cons_of_mem _ hin))
      · exact Or.inr (Or.inr (List.mem_cons_of_mem _ hin))
    | loop =>
      simp only [buildMapAux] at h
      rcases ih _ _ _ _ h p hp with hm | hin | hin
      · exact Or.inl hm
      · exact Or.inr (Or.inl (List.mem_cons_of_mem _ hin))
      · exact Or.inr (Or.inr (List.mem_cons_of_mem _ hin))
    | if_ =>
      simp only [buildMapAux] at h
      rcases ih _ _ _ _ h p hp with hm | hin | hin
      · exact Or.inl hm
      · exact Or.inr (Or.inl (List.mem_cons_of_mem _ hin))
      · exact Or.inr (Or.inr (List.mem_cons_of_mem _ hin))
    | else_ =>
      cases st with
      | nil => simp [buildMapAux] at h
      | cons b st2 =>
        simp only [buildMapAux] at h
        rcases ih _ _ _ _ h p hp with hm | hin | hin
        · rcases List.mem_cons.mp hm with rfl | hm2
          · exact Or.inr (Or.inl (List.mem_cons_self _ _))
          · exact Or.inl hm2
        · exact Or.inr (Or.inl (List.mem_cons_of_mem _ hin))
        · exact Or.inr (Or.inr (List.mem_cons_of_mem _ hin))
    | end_ =>
      cases st with
      | nil => simp [buildMapAux] at h
      | cons b st2 =>
        simp only [buildMapAux] at h
        rcases ih _ _ _ _ h p hp with hm | hin | hin
        · rcases List.mem_cons.mp hm with rfl | hm2
          · exact Or.inr (Or.inr (List.mem_cons_self _ _))
          · exact Or.inl hm2
        · exact Or.inr (Or.inl (List.mem_cons_of_mem _ hin))
        · exact Or.inr (Or.inr (List.mem_cons_of_mem _ hin))
    | other =>
      simp only [buildMapAux] at h
      rcases ih _ _ _ _ h p hp with hm | hin | hin
      · exact Or.inl hm
      · exact Or.inr (Or.inl (List.mem_cons_of_mem _ hin))
      · exact Or.inr (Or.inr (List.mem_cons_of_mem _ hin))

/-- Every entry of the map built by the scan pairs a begin position with
a strictly later terminator position. -/
theorem buildMapAux_lt :
    ∀ (instrs : List Instr) (k : Nat) (st : List Nat) (m : List (Nat × Nat))
      (st' : List Nat) (m' : List (Nat × Nat)),
      buildMapAux (List.enumFrom k instrs) st m = some (st', m') →
      (∀ x ∈ st, x < k) → (∀ p ∈ m, p.1 < p.2) → ∀ p ∈ m', p.1 < p.2 := by
  intro instrs
  induction instrs with
  | nil =>
    intro k st m st' m' h hst hm p hp
    simp [buildMapAux] at h
    obtain ⟨rfl, rfl⟩ := h
    exact hm p hp
  | cons i rest ih =>
    intro k st m st' m' h hst hm p hp
    rw [List.enumFrom_cons] at h
    cases i with
    | block =>
      simp only [buildMapAux] at h
      refine ih (k + 1) _ _ _ _ h ?_ hm p hp
      intro x hx
      rcases List.mem_cons.mp hx with rfl | hx
      · omega
      · exact Nat.lt_succ_of_lt (hst x hx)
    | loop =>
      simp only [buildMapAux] at h
      refine ih (k + 1) _ _ _ _ h ?_ hm p hp
      intro x hx
      rcases List.mem_cons.mp hx with rfl | hx
      · omega
      · exact Nat.lt_succ_of_lt (hst x hx)
    | if_ =>
      simp only [buildMapAux] at h
      refine ih (k + 1) _ _ _ _ h ?_ hm p hp
      intro x hx
      rcases List.mem_cons.mp hx with rfl | hx
      · omega
      · exact Nat.lt_succ_of_lt (hst x hx)
    | else_ =>
      cases st with
      | nil => simp [buildMapAux] at h
      | cons b st2 =>
        simp only [buildMapAux] at h
        refine ih (k + 1) _ _ _ _ h ?_ ?_ p hp
        · intro x hx
          rcases List.mem_cons.mp hx with rfl | hx
          · omega
          · exact Nat.lt_succ_of_lt (hst x (List.mem_cons_of_mem _ hx))
        · intro q hq
          rcases List.mem_cons.mp hq with rfl | hq
          · exact hst b (List.mem_cons_self _ _)
          · exact hm q hq
    | end_ =>
      cases st with
      | nil => simp [buildMapAux] at h
      | cons b st2 =>
        simp only [buildMapAux] at h
        refine ih (k + 1) _ _ _ _ h ?_ ?_ p hp
        · intro x hx
          exact Nat.lt_succ_of_lt (hst x (List.mem_cons_of_mem _ hx))
        · intro q hq
          rcases List.mem_cons.mp hq with rfl | hq
          · exact hst b (List.mem_cons_self _ _)
          · exact hm q hq
    | other =>
      simp only [buildMapAux] at h
      refine ih (k + 1) _ _ _ _ h ?_ hm p hp
      intro x hx
      exact Nat.lt_succ_of_lt (hst x hx)

/-- Successful construction unfolded: the scan succeeded with an empty
residual begin-stack, and the initial block stack is the Function frame. -/
theorem new_eq_some (instrs : List Instr) (s : BlockStack)
    (h : BlockStack.new instrs = some s) :
    buildMapAux instrs.dropLast.enum [] [] = some ([], s.begin_end_map) ∧
    s.block_stack = [.function (instrs.length - 1)] := by
  cases instrs with
  | nil => simp [BlockStack.new] at h
  | cons a t =>
    simp only [BlockStack.new] at h
    cases hb : buildMapAux ((a :: t).dropLast).enum [] [] with
    | none => rw [hb] at h; cases h
    | some pr =>
      obtain ⟨st, m⟩ := pr
      rw [hb] at h
      cases st with
      | cons c cs => simp at h
      | nil =>
        simp at h
        subst h
        exact ⟨rfl, rfl⟩

/-- The keys of the begin-end map of a successfully constructed
`BlockStack`: pairwise distinct, and exactly the begin-like positions of
the scanned segment. -/
theorem new_map_keys_iff (instrs : List Instr) (s : BlockStack)
    (h : BlockStack.new instrs = some s) :
    (s.begin_end_map.map Prod.fst).Nodup ∧
    (∀ b : Nat, b ∈ s.begin_end_map.map Prod.fst ↔
      ∃ ins, instrs.dropLast[b]? = some ins ∧ beginLike ins = true) := by
  obtain ⟨hb, -⟩ := new_eq_some instrs s h
  have hms := buildMapAux_keys_multiset _ _ _ _ _ hb
  simp only [List.map_nil, Multiset.coe_nil, Multiset.coe_nil, zero_add, add_zero] at hms
  have hperm : (s.begin_end_map.map Prod.fst).Perm (beginIdx instrs.dropLast.enum) :=
    Multiset.coe_eq_coe.mp hms
  constructor
  · exact hperm.nodup_iff.mpr (beginIdx_enumFrom_nodup instrs.dropLast 0)
  · intro b
    rw [hperm.mem_iff, mem_beginIdx_iff]
    constructor
    · rintro ⟨ins, hmem, hbl⟩
      obtain ⟨-, hget⟩ := (mk_mem_enumFrom_iff instrs.dropLast 0 b ins).mp hmem
      rw [Nat.sub_zero] at hget
      exact ⟨ins, hget, hbl⟩
    · rintro ⟨ins, hget, hbl⟩
      refine ⟨ins, (mk_mem_enumFrom_iff instrs.dropLast 0 b ins).mpr
        ⟨Nat.zero_le _, ?_⟩, hbl⟩
      rwa [Nat.sub_zero]

/-- C3: for every balanced instruction sequence (one accepted by
construction), the begin-end map has pairwise-distinct keys, its keys
are exactly the Block/Loop/If/Else positions before the final End, and
every entry `(b, e)` satisfies `b < e`. -/
theorem begin_end_map_total (instrs : List Instr) (s : BlockStack)
    (h : BlockStack.new instrs = some s) :
    (s.begin_end_map.map Prod.fst).Nodup ∧
    (∀ b : Nat, b ∈ s.begin_end_map.map Prod.fst ↔
      ∃ ins, instrs.dropLast[b]? = some ins ∧ beginLike ins = true) ∧
    (∀ p ∈ s.begin_end_map, p.1 < p.2) := by
  obtain ⟨hnd, hkeys⟩ := new_map_keys_iff instrs s h
  obtain ⟨hb, -⟩ := new_eq_some instrs s h
  refine ⟨hnd, hkeys, ?_⟩
  exact buildMapAux_lt instrs.dropLast 0 [] [] [] s.begin_end_map hb
    (by simp) (by simp)

/-- C3 witness: the spec's `[Block, Nop, End, End]` example, whose map is
`{0 → 2}`. -/
theorem begin_end_map_total_witness :
    (([((0 : Nat), (2 : Nat))]).map Prod.fst).Nodup ∧
    (0 : Nat) ∈ [((0 : Nat), (2 : Nat))].map Prod.fst ∧
    (∀ p ∈ [((0 : Nat), (2 : Nat))], p.1 < p.2) := by
  obtain ⟨hnd, hmem, hlt⟩ := begin_end_map_total [.block, .other, .end_, .end_]
    ⟨[.function 3], [(0, 2)]⟩ (by decide)
  exact ⟨hnd, (hmem 0).mpr ⟨.block, by decide, rfl⟩, hlt⟩

/-- C10: every key of the map of a successfully constructed `BlockStack`
is a Block/Loop/If/Else position (never an End position), and the second
probe made by `begin_if` succeeds exactly when the first lookup yielded
an Else position. -/
theorem begin_end_map_keys_begin_class (instrs : List Instr) (s : BlockStack)
    (h : BlockStack.new instrs = some s) :
    (∀ b e, s.begin_end_map.lookup b = some e →
      ∃ ins, instrs.dropLast[b]? = some ins ∧ beginLike ins = true ∧
        ins ≠ Instr.end_) ∧
    (∀ b e, s.begin_end_map.lookup b = some e →
      ((s.begin_end_map.lookup e).isSome = true ↔
        instrs.dropLast[e]? = some Instr.else_)) := by
  obtain ⟨hnd, hkeys⟩ := new_map_keys_iff instrs s h
  obtain ⟨hb, -⟩ := new_eq_some instrs s h
  have hvals : ∀ p ∈ s.begin_end_map,
      (p.2, Instr.else_) ∈ instrs.dropLast.enum ∨
      (p.2, Instr.end_) ∈ instrs.dropLast.enum := by
    intro p hp
    rcases buildMapAux_vals _ _ _ _ _ hb p hp with hm | hin | hin
    · cases hm
    · exact Or.inl hin
    · exact Or.inr hin
  constructor
  · intro b e hbe
    have hkey : b ∈ s.begin_end_map.map Prod.fst := by
      rw [← lookup_isSome_iff_mem_keys, hbe]
      rfl
    obtain ⟨ins, hget, hbl⟩ := (hkeys b).mp hkey
    refine ⟨ins, hget, hbl, ?_⟩
    intro hend
    subst hend
    simp [beginLike] at hbl
  · intro b e hbe
    have hpe := hvals (b, e) (lookup_eq_some_mem _ _ _ hbe)
    constructor
    · intro hsome
      obtain ⟨ins, hget, hbl⟩ := (hkeys e).mp ((lookup_isSome_iff_mem_keys _ _).mp hsome)
      rcases hpe with hin | hin
      · obtain ⟨-, hg2⟩ := (mk_mem_enumFrom_iff instrs.dropLast 0 e Instr.else_).mp hin
        rwa [Nat.sub_zero] at hg2
      · obtain ⟨-, hg2⟩ := (mk_mem_enumFrom_iff instrs.dropLast 0 e Instr.end_).mp hin
        rw [Nat.sub_zero] at hg2
        rw [hget] at hg2
        injection hg2 with hg2
        subst hg2
        simp [beginLike] at hbl
    · intro hget
      have hk : e ∈ s.begin_end_map.map Prod.fst :=
        (hkeys e).mpr ⟨Instr.else_, hget, rfl⟩
      rw [← lookup_isSome_iff_mem_keys] at hk
      exact hk

/-- C10 witness: the `[If, Nop, Else, Nop, End, End]` example; key 0 is
the If position, and probing the map at its value 2 succeeds because
position 2 holds the Else. -/
theorem begin_end_map_keys_begin_class_witness :
    (∃ ins, [Instr.if_, .other, .else_, .other, .end_, .end_].dropLast[0]? = some ins ∧
      beginLike ins = true ∧ ins ≠ Instr.end_) ∧
    ((([((2 : Nat), (4 : Nat)), ((0 : Nat), (2 : Nat))] : List (Nat × Nat)).lookup
        2).isSome = true ↔
      [Instr.if_, .other, .else_, .other, .end_, .end_].dropLast[2]? =
        some Instr.else_) := by
  obtain ⟨h1, h2⟩ := begin_end_map_keys_begin_class
    [Instr.if_, .other, .else_, .other, .end_, .end_]
    ⟨[.function 5], [(2, 4), (0, 2)]⟩ (by decide)
  exact ⟨h1 0 2 (by decide), h2 0 2 (by decide)⟩

/-- C4: `begin_if` pushes according to its two map probes - if the second
probe succeeds the pushed record is `If p (some q) e`, otherwise
`If p none q`; and in the no-else case `q` is the matching End position
of the instruction sequence. -/
theorem begin_if_push_spec (instrs : List Instr) (s0 : BlockStack)
    (h : BlockStack.new instrs = some s0) (s : BlockStack)
    (hm : s.begin_end_map = s0.begin_end_map) (p q : Nat)
    (h1 : s.begin_end_map.lookup p = some q) :
    (∀ e, s.begin_end_map.lookup q = some e →
      s.begin_if p =
        some { s with block_stack := .if_ p (some q) e :: s.block_stack }) ∧
    (s.begin_end_map.lookup q = none →
      s.begin_if p =
        some { s with block_stack := .if_ p none q :: s.block_stack } ∧
      instrs.dropLast[q]? = some Instr.end_) := by
  constructor
  · intro e h2
    simp [BlockStack.begin_if, h1, h2]
  · intro h2
    refine ⟨by simp [BlockStack.begin_if, h1, h2], ?_⟩
    obtain ⟨hb, -⟩ := new_eq_some instrs s0 h
    rw [hm] at h1 h2
    have hpe : (q, Instr.else_) ∈ instrs.dropLast.enum ∨
        (q, Instr.end_) ∈ instrs.dropLast.enum := by
      rcases buildMapAux_vals _ _ _ _ _ hb (p, q)
          (lookup_eq_some_mem _ _ _ h1) with hm0 | hin | hin
      · cases hm0
      · exact Or.inl hin
      · exact Or.inr hin
    obtain ⟨-, hkeys⟩ := new_map_keys_iff instrs s0 h
    rcases hpe with hin | hin
    · obtain ⟨-, hg⟩ := (mk_mem_enumFrom_iff instrs.dropLast 0 q Instr.else_).mp hin
      rw [Nat.sub_zero] at hg
      have hk : q ∈ s0.begin_end_map.map Prod.fst :=
        (hkeys q).mpr ⟨Instr.else_, hg, rfl⟩
      rw [← lookup_isSome_iff_mem_keys, h2] at hk
      simp at hk
    · obtain ⟨-, hg⟩ := (mk_mem_enumFrom_iff instrs.dropLast 0 q Instr.end_).mp hin
      rwa [Nat.sub_zero] at hg

/-- C4 witness: the `[If, Nop, End, End]` example - an If without Else;
the pushed record carries `begin_else = none` and the looked-up position
2 indeed holds the matching End. -/
theorem begin_if_push_spec_witness :
    BlockStack.begin_if ⟨[.function 3], [(0, 2)]⟩ 0 =
      some ⟨[.if_ 0 none 2, .function 3], [(0, 2)]⟩ ∧
    [Instr.if_, .other, .end_, .end_].dropLast[2]? = some Instr.end_ := by
  obtain ⟨-, h2⟩ := begin_if_push_spec [Instr.if_, .other, .end_, .end_]
    ⟨[.function 3], [(0, 2)]⟩ (by decide) ⟨[.function 3], [(0, 2)]⟩ rfl 0 2 (by decide)
  exact h2 (by decide)

/-- C8: unbalanced nesting is fatal during construction, never a silent
wrong mapping - an Else or End scanned with an empty auxiliary stack
aborts the scan; a failed scan or a non-empty residual stack makes
construction fail; in particular an extra End and a missing End both
fail. -/
theorem new_unbalanced_fatal :
    (∀ (iidx : Nat) (i : Instr) (rest : List (Nat × Instr)) (m : List (Nat × Nat)),
      (i = Instr.else_ ∨ i = Instr.end_) →
      buildMapAux ((iidx, i) :: rest) [] m = none) ∧
    (∀ instrs : List Instr, buildMapAux instrs.dropLast.enum [] [] = none →
      BlockStack.new instrs = none) ∧
    (∀ (instrs : List Instr) (st : List Nat) (m : List (Nat × Nat)),
      buildMapAux instrs.dropLast.enum [] [] = some (st, m) → st ≠ [] →
      BlockStack.new instrs = none) ∧
    BlockStack.new [.block, .other, .end_, .end_, .end_] = none ∧
    BlockStack.new [.block, .block, .other, .end_, .end_] = none := by
  refine ⟨?_, ?_, ?_, by decide, by decide⟩
  · rintro iidx i rest m (rfl | rfl) <;> rfl
  · intro instrs hnone
    cases instrs with
    | nil => rfl
    | cons a t => simp [BlockStack.new, hnone]
  · intro instrs st m hsome hne
    cases instrs with
    | nil => rfl
    | cons a t => simp [BlockStack.new, hsome, hne]

/-- C8 witness: a lone extra End (sequence `[End, End]`) makes
construction fail via the empty-pop condition. -/
theorem new_unbalanced_fatal_witness :
    BlockStack.new [.end_, .end_] = none :=
  new_unbalanced_fatal.2.1 [.end_, .end_] (by decide)
